import Mathlib

/-!
Verification of the day-19 rule-matching engine (`day_19/orderby.py`).

Python strings are modelled as `List Char` (`Str`) and Python sets of
strings as `Finset Str`.  The development embeds, straight from the
source:

* the three combinators `literal`, `concat`, `alt`;
* the part-1 compiler `get_parser_p1` (fueled recursion, `none` models a
  raised exception or non-termination);
* the counting driver (`match_count`) and the candidate-string split;
* the part-2 memoized compiler `parser_memoize` / `get_parser_part2`.
  Its closures are defunctionalized into the inductive `P`: one
  constructor per lambda shape of the source (a literal, a `concat`
  node, an `alt` node, the deferred parser-table lookup placeholder,
  and the memo/depth-guard wrapper `parser_wrapper`).  The mutable
  enclosing-scope dictionaries (`parser_table`, `parser_memotable`,
  `parser_depthtable`) become the explicit state `PState`, and running
  a defunctionalized parser is the fueled interpreter `evalP`.
-/

namespace Day19

/-- A Python string. -/
abbrev Str : Type := List Char

/-- A Python set of strings (a result set of remainders). -/
abbrev RSet : Type := Finset Str

/-- `literal(string)`: match `string` as a prefix of the input and return
the singleton of the rest of the input, else the empty set. -/
def literal (t : Str) : Str → RSet :=
  fun input => if t.isPrefixOf input then {input.drop t.length} else ∅

/-- `concat(lhs, rhs)`: run `lhs`, then run `rhs` on every remainder it
produced, collecting the union of all results. -/
def concat (lhs rhs : Str → RSet) : Str → RSet :=
  fun input => (lhs input).biUnion rhs

/-- `alt(lhs, rhs)`: the union of the two matchers' result sets. -/
def alt (lhs rhs : Str → RSet) : Str → RSet :=
  fun input => lhs input ∪ rhs input

/-- A value of the `rules` dict: either a plain string to be matched
exactly, or a list of options, each a list of rule numbers to match
consecutively. -/
inductive Rule : Type where
  | term (t : Str)
  | opts (alts : List (List Nat))
deriving DecidableEq

/-- The `rules` dict: a partial map from rule number to rule. -/
def Grammar : Type := Nat → Option Rule

mutual

/-- `get_parser_p1(n)`: directly translate rule `n` into a parser.
`none` models a raised exception (missing key, empty rule) as well as
fuel exhaustion (the source recurses without bound on recursive rules). -/
def get_parser_p1 (g : Grammar) : Nat → Nat → Option (Str → RSet)
  | 0, _ => none
  | fuel + 1, n =>
    match g n with
    | none => none
    | some (Rule.term t) => some (literal t)
    | some (Rule.opts []) => none
    | some (Rule.opts (o :: os)) =>
      match make_concat_p1 g fuel o with
      | none => none
      | some p => alt_fold_p1 g fuel p os

/-- The inner `make_concat(parts)` of `get_parser_p1`. -/
def make_concat_p1 (g : Grammar) : Nat → List Nat → Option (Str → RSet)
  | 0, _ => none
  | _ + 1, [] => none
  | fuel + 1, part :: parts =>
    match get_parser_p1 g fuel part with
    | none => none
    | some p => concat_fold_p1 g fuel p parts

/-- The `for part in parts[1:]` loop of `make_concat`. -/
def concat_fold_p1 (g : Grammar) :
    Nat → (Str → RSet) → List Nat → Option (Str → RSet)
  | 0, _, _ => none
  | _ + 1, p, [] => some p
  | fuel + 1, p, part :: parts =>
    match get_parser_p1 g fuel part with
    | none => none
    | some q => concat_fold_p1 g fuel (concat p q) parts

/-- The `for alt_rule in rule[1:]` loop of `get_parser_p1`. -/
def alt_fold_p1 (g : Grammar) :
    Nat → (Str → RSet) → List (List Nat) → Option (Str → RSet)
  | 0, _, _ => none
  | _ + 1, p, [] => some p
  | fuel + 1, p, o :: os =>
    match make_concat_p1 g fuel o with
    | none => none
    | some q => alt_fold_p1 g fuel (alt p q) os

end

/-- The counting loop shared by both drivers:
`for s in input_lines: if '' in parser(s): match_count += 1`.
Faithful to the source, the loop runs over *all* the input lines. -/
def match_count (parser : Str → RSet) (input_lines : List Str) : Nat :=
  input_lines.countP fun s => decide (([] : Str) ∈ parser s)

/-- `strings = input_lines[split + 1:]` with `split = input_lines.index('')`
(the first blank line): the candidate strings of the input. -/
def candidate_strings (input_lines : List Str) : Option (List Str) :=
  (input_lines.findIdx? fun s => s == ([] : Str)).map
    fun i => input_lines.drop (i + 1)

/-- Defunctionalized parser closures of the part-2 memoized compiler,
one constructor per lambda shape of the source. -/
inductive P : Type where
  | lit (t : Str)
  | cat (l r : P)
  | alt (l r : P)
  | deferred (n : Nat)
  | wrapper (body : P) (n : Nat)
deriving DecidableEq

/-- The mutable state of `parser_memoize`: the parser table, and every
rule's memo table and depth table (`parser_memotable` and
`parser_depthtable`, keyed here by the owning rule's number). -/
structure PState : Type where
  table : Nat → Option P
  memo : Nat → Str → Option RSet
  depth : Nat → Str → Nat

/-- Write an entry of the parser table. -/
def setTable (st : PState) (n : Nat) (p : P) : PState :=
  { st with table := fun m => if m = n then some p else st.table m }

/-- Record a memoized result for rule `n` on input `s`. -/
def setMemo (st : PState) (n : Nat) (s : Str) (r : RSet) : PState :=
  { st with memo := fun m s' => if m = n ∧ s' = s then some r else st.memo m s' }

/-- `parser_depthtable[string] += 1` for rule `n` on input `s`. -/
def bumpDepth (st : PState) (n : Nat) (s : Str) : PState :=
  { st with depth := fun m s' => if m = n ∧ s' = s then st.depth m s' + 1 else st.depth m s' }

/-- The state before any compilation: empty parser table, empty memo
tables, all depth counters zero (`defaultdict(lambda: 0)`). -/
def initState : PState :=
  { table := fun _ => none, memo := fun _ _ => none, depth := fun _ _ => 0 }

mutual

/-- `get_parser(n)` inside `parser_memoize`: on a table hit return the
stored parser; otherwise install the deferred placeholder, compile the
rule body, overwrite the table entry with the *unwrapped* compiled
parser, and return the guard wrapper built around it. -/
def get_parser2 (g : Grammar) : Nat → Nat → PState → Option (P × PState)
  | 0, _, _ => none
  | fuel + 1, n, st =>
    match st.table n with
    | some p => some (p, st)
    | none =>
      match compile_rule2 g fuel n (setTable st n (P.deferred n)) with
      | none => none
      | some (body, st2) => some (P.wrapper body n, setTable st2 n body)

/-- The body of `get_parser_part2(n)` (the function `f` wrapped by
`parser_memoize`): translate rule `n` by folding `concat` over each
option and `alt` over the options. -/
def compile_rule2 (g : Grammar) : Nat → Nat → PState → Option (P × PState)
  | 0, _, _ => none
  | fuel + 1, n, st =>
    match g n with
    | none => none
    | some (Rule.term t) => some (P.lit t, st)
    | some (Rule.opts []) => none
    | some (Rule.opts (o :: os)) =>
      match make_concat2 g fuel o st with
      | none => none
      | some (p, st') => alt_fold2 g fuel p os st'

/-- The inner `make_concat(parts)` of `get_parser_part2`. -/
def make_concat2 (g : Grammar) : Nat → List Nat → PState → Option (P × PState)
  | 0, _, _ => none
  | _ + 1, [], _ => none
  | fuel + 1, part :: parts, st =>
    match get_parser2 g fuel part st with
    | none => none
    | some (p, st') => concat_fold2 g fuel p parts st'

/-- The `for part in parts[1:]` loop of `make_concat`. -/
def concat_fold2 (g : Grammar) : Nat → P → List Nat → PState → Option (P × PState)
  | 0, _, _, _ => none
  | _ + 1, p, [], st => some (p, st)
  | fuel + 1, p, part :: parts, st =>
    match get_parser2 g fuel part st with
    | none => none
    | some (q, st') => concat_fold2 g fuel (P.cat p q) parts st'

/-- The `for alt_rule in rule[1:]` loop of `get_parser_part2`. -/
def alt_fold2 (g : Grammar) : Nat → P → List (List Nat) → PState → Option (P × PState)
  | 0, _, _, _ => none
  | _ + 1, p, [], st => some (p, st)
  | fuel + 1, p, o :: os, st =>
    match make_concat2 g fuel o st with
    | none => none
    | some (q, st') => alt_fold2 g fuel (P.alt p q) os st'

end

/-- The iteration order of `for rest in lhs_matches`: the elements of the
set, sorted (insertion sort, which the kernel can evaluate; sorted
permutations coincide, so the lift is well defined). -/
def sortStrs (rs : RSet) : List Str :=
  Quot.lift (List.insertionSort (fun a b : Str => a ≤ b))
    (fun l₁ l₂ hp =>
      List.eq_of_perm_of_sorted
        ((List.perm_insertionSort _ l₁).trans (hp.trans (List.perm_insertionSort _ l₂).symm))
        (List.sorted_insertionSort _ l₁) (List.sorted_insertionSort _ l₂)) rs.val

mutual

/-- Run a defunctionalized parser on an input, threading the mutable
state.  `none` is fuel exhaustion (the source can diverge on grammars
whose recursion is not cut by the depth guard).  The `wrapper` case is
`parser_wrapper` from the source: memo hit, depth-bound check, then
increment the depth counter, run the underlying parser and memoize. -/
def evalP : Nat → P → Str → PState → Option (RSet × PState)
  | 0, _, _, _ => none
  | fuel + 1, p, s, st =>
    match p with
    | P.lit t => some (literal t s, st)
    | P.cat l r =>
      match evalP fuel l s st with
      | none => none
      | some (ls, st1) => evalCat fuel r (sortStrs ls) st1
    | P.alt l r =>
      match evalP fuel l s st with
      | none => none
      | some (a, st1) =>
        match evalP fuel r s st1 with
        | none => none
        | some (b, st2) => some (a ∪ b, st2)
    | P.deferred n =>
      match st.table n with
      | none => none
      | some q => evalP fuel q s st
    | P.wrapper body n =>
      match st.memo n s with
      | some r => some (r, st)
      | none =>
        if st.depth n s > s.length + 1 then some (∅, st)
        else
          match evalP fuel body s (bumpDepth st n s) with
          | none => none
          | some (r, st2) => some (r, setMemo st2 n s r)

/-- The `for rest in lhs_matches: all_matches.update(rhs(rest))` loop of
`concat`, iterating the remainder set in sorted order. -/
def evalCat : Nat → P → List Str → PState → Option (RSet × PState)
  | 0, _, _, _ => none
  | _ + 1, _, [], st => some ((∅ : RSet), st)
  | fuel + 1, r, rest :: rests, st =>
    match evalP fuel r rest st with
    | none => none
    | some (a, st1) =>
      match evalCat fuel r rests st1 with
      | none => none
      | some (b, st2) => some (a ∪ b, st2)

end

/-- Is this parser the memo/depth guard wrapper of rule `n`? -/
def is_wrapper_of : P → Nat → Bool
  | P.wrapper _ m, n => m == n
  | _, _ => false

/-- The underlying parser a guard wrapper wraps. -/
def wrapper_body : P → Option P
  | P.wrapper b _ => some b
  | _ => none

/-- The test grammar of the spec: rule 8 is `42 | 42 8` and rule 42 is
the terminal `"a"`. -/
def g84 : Grammar := fun n =>
  if n = 8 then some (Rule.opts [[42], [42, 8]])
  else if n = 42 then some (Rule.term ['a']) else none

/-- The unwrapped compiled body of rule 8 of `g84`: the first `42`
reference is compiled fresh (so it is rule 42's guard wrapper), the
second resolves through the table to rule 42's unwrapped literal, and
the self-reference resolves to the deferred placeholder. -/
def body8 : P := P.alt (P.wrapper (P.lit ['a']) 42) (P.cat (P.lit ['a']) (P.deferred 8))

/-- `get_parser_part2(8)` on `g84`. -/
def compiled8 : Option (P × PState) := get_parser2 g84 16 8 initState

/-- Run rule 8's compiled matcher on an input. -/
def run84 (s : Str) : Option (RSet × PState) :=
  compiled8.bind fun x => evalP 64 x.1 s x.2

/-- The grammar `{0: ""}` (rule text `0: ""`): the start rule is the
empty literal. -/
def g_empty : Grammar := fun n => if n = 0 then some (Rule.term []) else none

/-- The input file `['0: ""', '']`: one rule line, the blank separator
line, and no candidate strings after it. -/
def lines_empty : List Str := [['0', ':', ' ', '\"', '\"'], []]

/-! ## Basic combinator properties -/

/-- C6: `literal(t)` applied to `s` returns the singleton set containing
`s` with its first `len(t)` characters removed when `s` starts with `t`,
and the empty set otherwise (it is a total function, so it never raises);
equivalently, its members are exactly the `x` with `s = t ++ x`. -/
theorem literal_matches (t s : Str) :
    literal t s = (if t <+: s then {s.drop t.length} else ∅) ∧
    (∀ x, x ∈ literal t s ↔ s = t ++ x) := by
  by_cases h : t <+: s
  · have hb : t.isPrefixOf s = true := List.isPrefixOf_iff_prefix.mpr h
    obtain ⟨u, rfl⟩ := h
    have hd : (t ++ u).drop t.length = u := List.drop_left t u
    refine ⟨?_, ?_⟩
    · simp [literal, hb, List.prefix_append, hd]
    · intro x
      simp only [literal, hb, if_true, Finset.mem_singleton, hd]
      constructor
      · rintro rfl; rfl
      · intro hx
        exact (List.append_cancel_left hx).symm
  · have hb : t.isPrefixOf s = false := by
      by_contra hc
      exact h (List.isPrefixOf_iff_prefix.mp (eq_true_of_ne_false hc))
    refine ⟨by simp [literal, hb, h], ?_⟩
    intro x
    simp only [literal, hb]
    simp only [Bool.false_eq_true, if_false, Finset.not_mem_empty, false_iff]
    intro hx
    exact h ⟨x, hx.symm⟩

/-- C7: sequential composition is associative as a function on result
sets: `concat(concat(a,b),c)(input) = concat(a,concat(b,c))(input)`. -/
theorem concat_assoc (a b c : Str → RSet) (input : Str) :
    concat (concat a b) c input = concat a (concat b c) input := by
  show ((a input).biUnion b).biUnion c = (a input).biUnion fun x => (b x).biUnion c
  exact Finset.biUnion_biUnion _ _ _

/-- C8: alternative composition is exactly set union, hence commutative:
`alt(a,b)(input) = a(input) ∪ b(input) = alt(b,a)(input)`. -/
theorem alt_union_comm (a b : Str → RSet) (input : Str) :
    alt a b input = a input ∪ b input ∧ alt a b input = alt b a input :=
  ⟨rfl, by simp [alt, Finset.union_comm]⟩

/-! ## Matchers built from the three combinators return only suffixes -/

/-- The matchers built by composing the three combinators. -/
inductive Built : (Str → RSet) → Prop where
  | lit (t : Str) : Built (literal t)
  | cat {l r : Str → RSet} : Built l → Built r → Built (concat l r)
  | alt {l r : Str → RSet} : Built l → Built r → Built (alt l r)

theorem Built.suffix_mem {m : Str → RSet} (hm : Built m) :
    ∀ s x, x ∈ m s → x <:+ s := by
  induction hm with
  | lit t =>
    intro s x hx
    unfold literal at hx
    split at hx
    · rw [Finset.mem_singleton] at hx
      subst hx
      exact List.drop_suffix _ _
    · exact absurd hx (Finset.not_mem_empty x)
  | @cat l r hl hr ihl ihr =>
    intro s x hx
    have hx' : x ∈ (l s).biUnion r := hx
    obtain ⟨y, hy, hxy⟩ := Finset.mem_biUnion.mp hx'
    exact (ihr y x hxy).trans (ihl s y hy)
  | @alt l r hl hr ihl ihr =>
    intro s x hx
    have hx' : x ∈ l s ∪ r s := hx
    rcases Finset.mem_union.mp hx' with hc | hc
    · exact ihl s x hc
    · exact ihr s x hc

theorem built_p1_aux (g : Grammar) : ∀ fuel : Nat,
    (∀ n m, get_parser_p1 g fuel n = some m → Built m) ∧
    (∀ parts m, make_concat_p1 g fuel parts = some m → Built m) ∧
    (∀ p parts m, Built p → concat_fold_p1 g fuel p parts = some m → Built m) ∧
    (∀ p os m, Built p → alt_fold_p1 g fuel p os = some m → Built m) := by
  intro fuel
  induction fuel with
  | zero =>
    refine ⟨?_, ?_, ?_, ?_⟩ <;> intros <;>
      simp_all [get_parser_p1, make_concat_p1, concat_fold_p1, alt_fold_p1]
  | succ f ih =>
    obtain ⟨ihg, ihm, ihc, iha⟩ := ih
    refine ⟨?_, ?_, ?_, ?_⟩
    · intro n m h
      rw [get_parser_p1] at h
      split at h
      · exact absurd h (by simp)
      · exact Option.some_inj.mp h ▸ Built.lit _
      · exact absurd h (by simp)
      · split at h
        · exact absurd h (by simp)
        · exact iha _ _ _ (ihm _ _ ‹_›) h
    · intro parts m h
      cases parts with
      | nil => exact absurd h (by simp [make_concat_p1])
      | cons part parts =>
        rw [make_concat_p1] at h
        split at h
        · exact absurd h (by simp)
        · exact ihc _ _ _ (ihg _ _ ‹_›) h
    · intro p parts m hp h
      cases parts with
      | nil =>
        rw [concat_fold_p1] at h
        exact Option.some_inj.mp h ▸ hp
      | cons part parts =>
        rw [concat_fold_p1] at h
        split at h
        · exact absurd h (by simp)
        · exact ihc _ _ _ (Built.cat hp (ihg _ _ ‹_›)) h
    · intro p os m hp h
      cases os with
      | nil =>
        rw [alt_fold_p1] at h
        exact Option.some_inj.mp h ▸ hp
      | cons o os =>
        rw [alt_fold_p1] at h
        split at h
        · exact absurd h (by simp)
        · exact iha _ _ _ (Built.alt hp (ihm _ _ ‹_›)) h

/-- C10: every matcher built by composing `literal`, `concat` and `alt`
— in particular every matcher the part-1 compiler produces — returns
only suffixes of its input, so every member of the result set has length
at most the input's length. -/
theorem built_matchers_return_suffixes :
    (∀ m, Built m → ∀ s x, x ∈ m s → x <:+ s ∧ x.length ≤ s.length) ∧
    (∀ g fuel n m, get_parser_p1 g fuel n = some m → Built m) := by
  constructor
  · intro m hm s x hx
    exact ⟨hm.suffix_mem s x hx, (hm.suffix_mem s x hx).length_le⟩
  · intro g fuel n m h
    exact (built_p1_aux g fuel).1 n m h

/-! ## Concrete part-2 behaviour and the driver's counting bug -/

/-- C4: with rule 8 defined as `42 | 42 8` and rule 42 a terminal `"a"`,
the memoized compiler's matcher for rule 8 applied to `"aaa"` terminates
(the interpreter returns within finite fuel) with a result set containing
the empty string, and applied to `"aab"` terminates with a result set not
containing it. -/
theorem rule8_recursion_terminates :
    (run84 ['a', 'a', 'a']).map (fun x => decide (([] : Str) ∈ x.1)) = some true ∧
    (run84 ['a', 'a', 'b']).map (fun x => decide (([] : Str) ∈ x.1)) = some false := by
  decide

/-- C2 (counterexample): after compiling rule 8 of `g84`, the parser
table holds the *unwrapped* compiled body of rule 8, not the guard
wrapper (only the value returned to the caller is the wrapper); and
invoking rule 8's matcher through the deferred table indirection — as
the compiled self-reference does — on `"aa"` yields its matches while
leaving rule 8's depth counter at 0 and its memo table empty, so that
invocation never went through rule 8's guard. -/
theorem table_indirection_bypasses_guard :
    (compiled8.map fun x => x.2.table 8) = some (some body8) ∧
    is_wrapper_of body8 8 = false ∧
    (compiled8.map Prod.fst) = some (P.wrapper body8 8) ∧
    ((compiled8.bind fun x => evalP 64 (P.deferred 8) ['a', 'a'] x.2).map
        fun x => (decide (([] : Str) ∈ x.1), x.2.depth 8 ['a', 'a'],
          (x.2.memo 8 ['a', 'a']).isSome))
      = some (true, 0, false) := by
  decide

/-- C2 (amended): when rule `n` has no parser-table entry yet and its
body compiles, `get_parser` stores the *unwrapped* compiled parser in
the parser table and only the value it returns is the guard wrapper;
hence every reference resolved through the deferred table indirection
(and every later `get_parser(n)` call) observes the unwrapped matcher,
bypassing rule `n`'s resultCache/depthCounter guard. -/
theorem get_parser2_table_keeps_unwrapped (g : Grammar) (fuel n : Nat) (st : PState)
    (hnone : st.table n = none) (p : P) (st' : PState)
    (h : get_parser2 g (fuel + 1) n st = some (p, st')) :
    is_wrapper_of p n = true ∧ st'.table n = wrapper_body p := by
  simp only [get_parser2, hnone] at h
  split at h
  · exact absurd h (by simp)
  · injection h with hpair
    injection hpair with hp hs
    subst hp
    subst hs
    simp [is_wrapper_of, wrapper_body, setTable]

/-- Instantiation of `get_parser2_table_keeps_unwrapped` on `g84`,
rule 8. -/
theorem get_parser2_table_keeps_unwrapped_witness :
    (compiled8.map fun x => (is_wrapper_of x.1 8, decide (x.2.table 8 = wrapper_body x.1)))
      = some (true, true) := by
  cases hc : compiled8 with
  | none =>
    have hs : compiled8.isSome = true := by decide
    rw [hc] at hs
    exact absurd hs (by simp)
  | some x =>
    obtain ⟨p, st'⟩ := x
    have h := get_parser2_table_keeps_unwrapped g84 15 8 initState rfl p st' hc
    simp [h.1, h.2]

/-- C1 (code bug): the driver's loop runs over `input_lines` — every
line of the file, rule lines and the blank separator included — not over
the candidate strings after the separator (the computed `strings` list
is never used).  With the grammar `0: ""` and no candidate strings at
all, the blank separator line itself is fully matched: the code reports
1 while the count over the candidate strings is 0. -/
theorem driver_counts_all_input_lines :
    get_parser_p1 g_empty 1 0 = some (literal []) ∧
    match_count (literal []) lines_empty = 1 ∧
    candidate_strings lines_empty = some [] ∧
    match_count (literal []) [] = 0 := by
  refine ⟨rfl, by decide, by decide, rfl⟩

/-! ## The guard wrapper's contract -/

theorem setMemo_memo_self (st : PState) (n : Nat) (s : Str) (r : RSet) :
    (setMemo st n s r).memo n s = some r := by
  simp [setMemo]

/-- C3: the guard wrapper's exact behaviour on input `s`: (1) a memo hit
returns the cached set with the state untouched (no underlying call, no
depth change); (2) otherwise, when the depth counter for `s` exceeds
`len(s) + 1`, it returns the empty set with the state untouched (no
increment, no underlying call, and no error); (3) otherwise it
increments the depth counter, runs the underlying parser, stores its
result in the memo table for `s` and returns it. -/
theorem parser_wrapper_cases (body : P) (n : Nat) (fuel : Nat) (s : Str) (st : PState) :
    (∀ r, st.memo n s = some r → evalP (fuel + 1) (P.wrapper body n) s st = some (r, st)) ∧
    (st.memo n s = none → st.depth n s > s.length + 1 →
      evalP (fuel + 1) (P.wrapper body n) s st = some (∅, st)) ∧
    (∀ r st2, st.memo n s = none → ¬ st.depth n s > s.length + 1 →
      evalP fuel body s (bumpDepth st n s) = some (r, st2) →
      evalP (fuel + 1) (P.wrapper body n) s st = some (r, setMemo st2 n s r)) := by
  refine ⟨?_, ?_, ?_⟩
  · intro r hm
    simp [evalP, hm]
  · intro hm hd
    simp [evalP, hm, hd]
  · intro r st2 hm hd hb
    simp [evalP, hm, hd, hb]

/-- The state `{memo 0 "a" ↦ {""}}` of a memo hit. -/
def stM : PState := setMemo initState 0 ['a'] {([] : Str)}

/-- A state whose depth counter for rule 0 on `"a"` is 3, past the
bound `len("a") + 1 = 2`. -/
def stD : PState := bumpDepth (bumpDepth (bumpDepth initState 0 ['a']) 0 ['a']) 0 ['a']

/-- Instantiations of the three branches of `parser_wrapper_cases`. -/
theorem parser_wrapper_cases_witness :
    evalP 1 (P.wrapper (P.lit ['a']) 0) ['a'] stM = some ({([] : Str)}, stM) ∧
    evalP 1 (P.wrapper (P.lit ['a']) 0) ['a'] stD = some (∅, stD) ∧
    evalP 2 (P.wrapper (P.lit ['a']) 0) ['a'] initState
      = some ({([] : Str)}, setMemo (bumpDepth initState 0 ['a']) 0 ['a'] {([] : Str)}) :=
  ⟨(parser_wrapper_cases (P.lit ['a']) 0 0 ['a'] stM).1 {([] : Str)} (by decide),
   (parser_wrapper_cases (P.lit ['a']) 0 0 ['a'] stD).2.1 rfl (by decide),
   (parser_wrapper_cases (P.lit ['a']) 0 1 ['a'] initState).2.2 {([] : Str)}
     (bumpDepth initState 0 ['a']) rfl (by decide) rfl⟩

/-- C9: invoking a guard-wrapped matcher twice in succession on the same
input returns identical result sets both times, and the second call
leaves the state — in particular that rule's depth counter for that
input — exactly as the first call left it (a cache hit, not a
re-entry). -/
theorem second_call_is_cache_hit (body : P) (n : Nat) (f1 f2 : Nat) (s : Str)
    (st st1 : PState) (r : RSet)
    (h : evalP f1 (P.wrapper body n) s st = some (r, st1)) :
    evalP (f2 + 1) (P.wrapper body n) s st1 = some (r, st1) := by
  cases f1 with
  | zero => exact absurd h (by simp [evalP])
  | succ f =>
    simp only [evalP] at h
    cases hm : st.memo n s with
    | some r0 =>
      rw [hm] at h
      injection h with hpair
      injection hpair with hr hst
      subst hr
      subst hst
      simp [evalP, hm]
    | none =>
      rw [hm] at h
      by_cases hd : st.depth n s > s.length + 1
      · rw [if_pos hd] at h
        injection h with hpair
        injection hpair with hr hst
        subst hr
        subst hst
        simp [evalP, hm, hd]
      · rw [if_neg hd] at h
        cases he : evalP f body s (bumpDepth st n s) with
        | none => rw [he] at h; exact absurd h (by simp)
        | some x =>
          obtain ⟨r', st2⟩ := x
          rw [he] at h
          injection h with hpair
          injection hpair with hr hst
          subst hr
          subst hst
          simp [evalP, setMemo_memo_self]

/-- Instantiation of `second_call_is_cache_hit`: the second call after a
fresh first call on `"a"`. -/
theorem second_call_is_cache_hit_witness :
    evalP 1 (P.wrapper (P.lit ['a']) 0) ['a']
        (setMemo (bumpDepth initState 0 ['a']) 0 ['a'] {([] : Str)})
      = some ({([] : Str)}, setMemo (bumpDepth initState 0 ['a']) 0 ['a'] {([] : Str)}) :=
  second_call_is_cache_hit (P.lit ['a']) 0 2 0 ['a'] initState
    (setMemo (bumpDepth initState 0 ['a']) 0 ['a'] {([] : Str)}) {([] : Str)} rfl

/-! ## Part-1 / part-2 equivalence on grammars without recursion

The bridge is a reference denotation `den`: the matcher of a rule,
unfolded rank-many times.  The part-1 compiler's closures and the
part-2 interpreter (table, memo caches and depth guards included) are
both proved to compute it, rule by rule, on every well-formed grammar
whose references strictly decrease some rank — exactly the grammars in
which no rule transitively references itself. -/

/-- Well-formed rank-stratified grammar: every rule body has at least
one option with at least one part each (as every parsed rule line
does), every referenced rule id is present, and `rank` strictly
decreases along references — so no rule transitively references
itself. -/
def WFAcyclic (g : Grammar) (rank : Nat → Nat) : Prop :=
  ∀ n os, g n = some (Rule.opts os) →
    os ≠ [] ∧ ∀ o ∈ os, o ≠ [] ∧ ∀ m ∈ o, (g m).isSome = true ∧ rank m < rank n

/-- One option, folded with `concat` over the given rule denotations
(the fold shape of `make_concat`). -/
def den_concat (d : Nat → Str → RSet) : List Nat → Str → RSet
  | [] => fun _ => ∅
  | m :: ms => (ms.map d).foldl concat (d m)

/-- A rule body's options, folded with `alt` (the fold shape of the
compilers' option loop). -/
def den_opts (d : Nat → Str → RSet) : List (List Nat) → Str → RSet
  | [] => fun _ => ∅
  | o :: os => (os.map (den_concat d)).foldl alt (den_concat d o)

/-- Rank-bounded unfolding of a rule into its matcher. -/
def den_aux (g : Grammar) : Nat → Nat → Str → RSet
  | 0, _ => fun _ => ∅
  | k + 1, n =>
    match g n with
    | some (Rule.term t) => literal t
    | some (Rule.opts os) => den_opts (den_aux g k) os
    | none => fun _ => ∅

/-- The reference denotation of rule `n`. -/
def den (g : Grammar) (rank : Nat → Nat) (n : Nat) : Str → RSet :=
  den_aux g (rank n + 1) n

theorem concat_congr {a b a2 b2 : Str → RSet} (ha : ∀ s, a s = a2 s)
    (hb : ∀ s, b s = b2 s) : ∀ s, concat a b s = concat a2 b2 s := by
  intro s
  show (a s).biUnion b = (a2 s).biUnion b2
  rw [ha]
  exact Finset.biUnion_congr rfl fun x _ => hb x

theorem alt_congr {a b a2 b2 : Str → RSet} (ha : ∀ s, a s = a2 s)
    (hb : ∀ s, b s = b2 s) : ∀ s, alt a b s = alt a2 b2 s := by
  intro s
  show a s ∪ b s = a2 s ∪ b2 s
  rw [ha, hb]

theorem foldl_concat_congr (f f2 : Nat → Str → RSet) :
    ∀ (ms : List Nat) {acc acc2 : Str → RSet},
      (∀ m ∈ ms, ∀ s, f m s = f2 m s) → (∀ s, acc s = acc2 s) →
      ∀ s, (ms.map f).foldl concat acc s = (ms.map f2).foldl concat acc2 s := by
  intro ms
  induction ms with
  | nil => intro acc acc2 _ hacc s; exact hacc s
  | cons m ms ih =>
    intro acc acc2 hms hacc s
    have hm : ∀ s, f m s = f2 m s := hms m (List.mem_cons_self m ms)
    exact ih (fun m' hm' => hms m' (List.mem_cons_of_mem m hm'))
      (concat_congr hacc hm) s

theorem foldl_alt_congr (f f2 : List Nat → Str → RSet) :
    ∀ (os : List (List Nat)) {acc acc2 : Str → RSet},
      (∀ o ∈ os, ∀ s, f o s = f2 o s) → (∀ s, acc s = acc2 s) →
      ∀ s, (os.map f).foldl alt acc s = (os.map f2).foldl alt acc2 s := by
  intro os
  induction os with
  | nil => intro acc acc2 _ hacc s; exact hacc s
  | cons o os ih =>
    intro acc acc2 hos hacc s
    have ho : ∀ s, f o s = f2 o s := hos o (List.mem_cons_self o os)
    exact ih (fun o2 ho2 => hos o2 (List.mem_cons_of_mem o ho2))
      (alt_congr hacc ho) s

theorem den_concat_congr {d d2 : Nat → Str → RSet} :
    ∀ (o : List Nat), (∀ m ∈ o, ∀ s, d m s = d2 m s) →
      ∀ s, den_concat d o s = den_concat d2 o s := by
  intro o ho s
  cases o with
  | nil => rfl
  | cons m ms =>
    exact foldl_concat_congr d d2 ms
      (fun m2 hm2 => ho m2 (List.mem_cons_of_mem m hm2))
      (ho m (List.mem_cons_self m ms)) s

theorem den_opts_congr {d d2 : Nat → Str → RSet} :
    ∀ (os : List (List Nat)),
      (∀ o ∈ os, ∀ m ∈ o, ∀ s, d m s = d2 m s) →
      ∀ s, den_opts d os s = den_opts d2 os s := by
  intro os hos s
  cases os with
  | nil => rfl
  | cons o os =>
    exact foldl_alt_congr (den_concat d) (den_concat d2) os
      (fun o2 ho2 => den_concat_congr o2 (hos o2 (List.mem_cons_of_mem o ho2)))
      (den_concat_congr o (hos o (List.mem_cons_self o os))) s

/-- The rank-bounded unfolding is stable past a rule's rank: any two
sufficient bounds give the same matcher. -/
theorem den_aux_stable (g : Grammar) (rank : Nat → Nat) (hwf : WFAcyclic g rank) :
    ∀ j n k k2, rank n < j → rank n < k → rank n < k2 →
      ∀ s, den_aux g k n s = den_aux g k2 n s := by
  intro j
  induction j using Nat.strong_induction_on with
  | _ j ih =>
    intro n k k2 hj hk hk2 s
    obtain ⟨a, rfl⟩ : ∃ a, k = a + 1 := ⟨k - 1, by omega⟩
    obtain ⟨b, rfl⟩ : ∃ b, k2 = b + 1 := ⟨k2 - 1, by omega⟩
    cases hg : g n with
    | none => simp [den_aux, hg]
    | some rule =>
      cases rule with
      | term t => simp [den_aux, hg]
      | opts os =>
        simp only [den_aux, hg]
        refine den_opts_congr os (fun o ho m hm s2 => ?_) s
        have hmo := ((hwf n os hg).2 o ho).2 m hm
        exact ih (rank n) hj m a b hmo.2 (by omega) (by omega) s2

/-- Part-1 compilation is monotone in fuel: a successful compilation
stays successful, with the same result, at any larger fuel. -/
theorem p1_mono (g : Grammar) : ∀ f : Nat,
    (∀ f2 n m, f ≤ f2 → get_parser_p1 g f n = some m → get_parser_p1 g f2 n = some m) ∧
    (∀ f2 parts m, f ≤ f2 → make_concat_p1 g f parts = some m →
      make_concat_p1 g f2 parts = some m) ∧
    (∀ f2 p parts m, f ≤ f2 → concat_fold_p1 g f p parts = some m →
      concat_fold_p1 g f2 p parts = some m) ∧
    (∀ f2 p os m, f ≤ f2 → alt_fold_p1 g f p os = some m →
      alt_fold_p1 g f2 p os = some m) := by
  intro f
  induction f with
  | zero =>
    refine ⟨?_, ?_, ?_, ?_⟩ <;> intros <;>
      simp_all [get_parser_p1, make_concat_p1, concat_fold_p1, alt_fold_p1]
  | succ f ih =>
    obtain ⟨ihg, ihm, ihc, iha⟩ := ih
    refine ⟨?_, ?_, ?_, ?_⟩
    · intro f2 n m hle h
      obtain ⟨f3, rfl⟩ : ∃ f3, f2 = f3 + 1 := ⟨f2 - 1, by omega⟩
      have hle3 : f ≤ f3 := by omega
      cases hg : g n with
      | none => simp [get_parser_p1, hg] at h
      | some rule =>
        cases rule with
        | term t => simpa [get_parser_p1, hg] using h
        | opts os =>
          cases os with
          | nil => simp [get_parser_p1, hg] at h
          | cons o os =>
            simp only [get_parser_p1, hg] at h ⊢
            cases hmc : make_concat_p1 g f o with
            | none => simp [hmc] at h
            | some p =>
              simp only [hmc] at h
              simp only [ihm f3 o p hle3 hmc]
              exact iha f3 p os m hle3 h
    · intro f2 parts m hle h
      obtain ⟨f3, rfl⟩ : ∃ f3, f2 = f3 + 1 := ⟨f2 - 1, by omega⟩
      have hle3 : f ≤ f3 := by omega
      cases parts with
      | nil => simp [make_concat_p1] at h
      | cons part parts =>
        simp only [make_concat_p1] at h ⊢
        cases hg : get_parser_p1 g f part with
        | none => simp [hg] at h
        | some p =>
          simp only [hg] at h
          simp only [ihg f3 part p hle3 hg]
          exact ihc f3 p parts m hle3 h
    · intro f2 p parts m hle h
      obtain ⟨f3, rfl⟩ : ∃ f3, f2 = f3 + 1 := ⟨f2 - 1, by omega⟩
      have hle3 : f ≤ f3 := by omega
      cases parts with
      | nil =>
        simp only [concat_fold_p1] at h ⊢
        exact h
      | cons part parts =>
        simp only [concat_fold_p1] at h ⊢
        cases hg : get_parser_p1 g f part with
        | none => simp [hg] at h
        | some q =>
          simp only [hg] at h
          simp only [ihg f3 part q hle3 hg]
          exact ihc f3 (concat p q) parts m hle3 h
    · intro f2 p os m hle h
      obtain ⟨f3, rfl⟩ : ∃ f3, f2 = f3 + 1 := ⟨f2 - 1, by omega⟩
      have hle3 : f ≤ f3 := by omega
      cases os with
      | nil =>
        simp only [alt_fold_p1] at h ⊢
        exact h
      | cons o os =>
        simp only [alt_fold_p1] at h ⊢
        cases hmc : make_concat_p1 g f o with
        | none => simp [hmc] at h
        | some q =>
          simp only [hmc] at h
          simp only [ihm f3 o q hle3 hmc]
          exact iha f3 (alt p q) os m hle3 h

theorem concat_fold_den (g : Grammar) (rank : Nat → Nat) :
    ∀ (parts : List Nat) (acc accd : Str → RSet),
      (∀ m ∈ parts, ∃ f pm, get_parser_p1 g f m = some pm ∧
        ∀ s, pm s = den g rank m s) →
      (∀ s, acc s = accd s) →
      ∃ f p, concat_fold_p1 g f acc parts = some p ∧
        ∀ s, p s = (parts.map (den g rank)).foldl concat accd s := by
  intro parts
  induction parts with
  | nil =>
    intro acc accd _ hacc
    exact ⟨1, acc, rfl, hacc⟩
  | cons m ms ih =>
    intro acc accd hparts hacc
    obtain ⟨fm, pm, hpm, hpden⟩ := hparts m (List.mem_cons_self m ms)
    obtain ⟨fr, p, hfold, hden⟩ := ih (concat acc pm) (concat accd (den g rank m))
      (fun m2 hm2 => hparts m2 (List.mem_cons_of_mem m hm2))
      (concat_congr hacc hpden)
    refine ⟨max fm fr + 1, p, ?_, ?_⟩
    · simp only [concat_fold_p1]
      simp only [(p1_mono g fm).1 (max fm fr) m pm (le_max_left _ _) hpm]
      exact (p1_mono g fr).2.2.1 _ (concat acc pm) ms p (le_max_right _ _) hfold
    · intro s
      simp only [List.map_cons, List.foldl_cons]
      exact hden s

theorem make_concat_den (g : Grammar) (rank : Nat → Nat) :
    ∀ (o : List Nat), o ≠ [] →
      (∀ m ∈ o, ∃ f pm, get_parser_p1 g f m = some pm ∧
        ∀ s, pm s = den g rank m s) →
      ∃ f p, make_concat_p1 g f o = some p ∧
        ∀ s, p s = den_concat (den g rank) o s := by
  intro o ho hparts
  cases o with
  | nil => exact absurd rfl ho
  | cons m ms =>
    obtain ⟨fm, pm, hpm, hpden⟩ := hparts m (List.mem_cons_self m ms)
    obtain ⟨fr, p, hfold, hden⟩ := concat_fold_den g rank ms pm (den g rank m)
      (fun m2 hm2 => hparts m2 (List.mem_cons_of_mem m hm2)) hpden
    refine ⟨max fm fr + 1, p, ?_, ?_⟩
    · simp only [make_concat_p1]
      simp only [(p1_mono g fm).1 (max fm fr) m pm (le_max_left _ _) hpm]
      exact (p1_mono g fr).2.2.1 _ pm ms p (le_max_right _ _) hfold
    · intro s
      exact hden s

theorem alt_fold_den (g : Grammar) (rank : Nat → Nat) :
    ∀ (os : List (List Nat)) (acc accd : Str → RSet),
      (∀ o ∈ os, ∃ f p, make_concat_p1 g f o = some p ∧
        ∀ s, p s = den_concat (den g rank) o s) →
      (∀ s, acc s = accd s) →
      ∃ f p, alt_fold_p1 g f acc os = some p ∧
        ∀ s, p s = (os.map (den_concat (den g rank))).foldl alt accd s := by
  intro os
  induction os with
  | nil =>
    intro acc accd _ hacc
    exact ⟨1, acc, rfl, hacc⟩
  | cons o os ih =>
    intro acc accd hos hacc
    obtain ⟨fo, po, hpo, hpden⟩ := hos o (List.mem_cons_self o os)
    obtain ⟨fr, p, hfold, hden⟩ := ih (alt acc po) (alt accd (den_concat (den g rank) o))
      (fun o2 ho2 => hos o2 (List.mem_cons_of_mem o ho2))
      (alt_congr hacc hpden)
    refine ⟨max fo fr + 1, p, ?_, ?_⟩
    · simp only [alt_fold_p1]
      simp only [(p1_mono g fo).2.1 (max fo fr) o po (le_max_left _ _) hpo]
      exact (p1_mono g fr).2.2.2 _ (alt acc po) os p (le_max_right _ _) hfold
    · intro s
      simp only [List.map_cons, List.foldl_cons]
      exact hden s

/-- On a well-formed acyclic grammar, the part-1 compiler succeeds on
every present rule (for some fuel) and its matcher computes the
reference denotation. -/
theorem p1_den (g : Grammar) (rank : Nat → Nat) (hwf : WFAcyclic g rank) :
    ∀ j n, rank n < j → (g n).isSome = true →
      ∃ f m, get_parser_p1 g f n = some m ∧ ∀ s, m s = den g rank n s := by
  intro j
  induction j using Nat.strong_induction_on with
  | _ j ih =>
    intro n hj hn
    obtain ⟨rule, hg⟩ := Option.isSome_iff_exists.mp hn
    cases rule with
    | term t =>
      refine ⟨1, literal t, by simp [get_parser_p1, hg], ?_⟩
      intro s
      simp [den, den_aux, hg]
    | opts os =>
      obtain ⟨hne, hos⟩ := hwf n os hg
      have hpart : ∀ o ∈ os, ∀ m ∈ o, ∃ f pm, get_parser_p1 g f m = some pm ∧
          ∀ s, pm s = den g rank m s := by
        intro o ho m hm
        have h2 := (hos o ho).2 m hm
        exact ih (rank n) hj m h2.2 h2.1
      have hoption : ∀ o ∈ os, ∃ f p, make_concat_p1 g f o = some p ∧
          ∀ s, p s = den_concat (den g rank) o s := by
        intro o ho
        exact make_concat_den g rank o (hos o ho).1 (hpart o ho)
      cases os with
      | nil => exact absurd rfl hne
      | cons o os2 =>
        obtain ⟨fo, po, hpo, hpoden⟩ := hoption o (List.mem_cons_self o os2)
        obtain ⟨fa, p, hfold, hden⟩ := alt_fold_den g rank os2 po
          (den_concat (den g rank) o)
          (fun o2 ho2 => hoption o2 (List.mem_cons_of_mem o ho2)) hpoden
        refine ⟨max fo fa + 1, p, ?_, ?_⟩
        · simp only [get_parser_p1, hg]
          simp only [(p1_mono g fo).2.1 (max fo fa) o po (le_max_left _ _) hpo]
          exact (p1_mono g fa).2.2.2 _ po os2 p (le_max_right _ _) hfold
        · intro s
          rw [hden s]
          have hstab : ∀ o2 ∈ (o :: os2), ∀ m ∈ o2, ∀ s2,
              den g rank m s2 = den_aux g (rank n) m s2 := by
            intro o2 ho2 m hm s2
            have h2 := (hos o2 ho2).2 m hm
            exact den_aux_stable g rank hwf (rank n) m (rank m + 1) (rank n) h2.2
              (Nat.lt_succ_self _) h2.2 s2
          rw [foldl_alt_congr (den_concat (den g rank))
            (den_concat (den_aux g (rank n))) os2
            (fun o2 ho2 => den_concat_congr o2 (hstab o2 (List.mem_cons_of_mem o ho2)))
            (den_concat_congr o (hstab o (List.mem_cons_self o os2))) s]
          show den_opts (den_aux g (rank n)) (o :: os2) s = den g rank n s
          simp [den, den_aux, hg]

/-- Pure denotation of a defunctionalized parser, with deferred nodes
read from the given rule-denotation assignment and guard wrappers
behaving as their underlying parser. -/
def pden (d : Nat → Str → RSet) : P → Str → RSet
  | P.lit t => literal t
  | P.cat l r => concat (pden d l) (pden d r)
  | P.alt l r => alt (pden d l) (pden d r)
  | P.deferred n => d n
  | P.wrapper b _ => pden d b

/-- Deferred-free parsers whose guard wrappers are denotationally
faithful to `d` and whose wrapper tags have rank below the bound
(recursively below their own wrapper's rank). -/
inductive WfB (rank : Nat → Nat) (d : Nat → Str → RSet) : Nat → P → Prop where
  | lit (R t) : WfB rank d R (P.lit t)
  | cat {R l r} : WfB rank d R l → WfB rank d R r → WfB rank d R (P.cat l r)
  | alt {R l r} : WfB rank d R l → WfB rank d R r → WfB rank d R (P.alt l r)
  | wrapper {R b n} : rank n < R → WfB rank d (rank n) b →
      (∀ s, pden d b s = d n s) → WfB rank d R (P.wrapper b n)

theorem WfB.weaken {rank : Nat → Nat} {d : Nat → Str → RSet} :
    ∀ {R p}, WfB rank d R p → ∀ {R2}, R ≤ R2 → WfB rank d R2 p := by
  intro R p h
  induction h with
  | lit R t => intro R2 _; exact WfB.lit R2 t
  | cat _ _ ihl ihr => intro R2 hle; exact WfB.cat (ihl hle) (ihr hle)
  | alt _ _ ihl ihr => intro R2 hle; exact WfB.alt (ihl hle) (ihr hle)
  | wrapper hn hb hd _ => intro R2 hle; exact WfB.wrapper (lt_of_lt_of_le hn hle) hb hd

theorem WfB.ne_deferred {rank : Nat → Nat} {d : Nat → Str → RSet} {R : Nat} {p : P}
    (h : WfB rank d R p) : ∀ k, p ≠ P.deferred k := by
  cases h <;> intro k <;> simp

/-- Compile-phase table invariant: every entry is either its own rule's
deferred placeholder (a compilation in progress) or a completed
well-formed body computing that rule's denotation. -/
def TInv (g : Grammar) (rank : Nat → Nat) (st : PState) : Prop :=
  ∀ k q, st.table k = some q →
    q = P.deferred k ∨
      (WfB rank (den g rank) (rank k) q ∧
        ∀ s, pden (den g rank) q s = den g rank k s)

/-- All in-progress (deferred) table entries have rank at least `r`. -/
def DeferredAbove (rank : Nat → Nat) (st : PState) (r : Nat) : Prop :=
  ∀ k, st.table k = some (P.deferred k) → r ≤ rank k

/-- The compile step introduced no new in-progress entries. -/
def NoNewDef (st st2 : PState) : Prop :=
  ∀ k, st2.table k = some (P.deferred k) → st.table k = some (P.deferred k)

/-- Compiling rule `m` succeeds from any invariant state, returns a
well-formed parser computing rule `m`'s denotation, and touches neither
the memo tables nor the depth counters nor the in-progress entries. -/
def CallOK (g : Grammar) (rank : Nat → Nat) (m : Nat) : Prop :=
  ∀ st : PState, TInv g rank st → DeferredAbove rank st (rank m + 1) →
    ∃ f p st2, get_parser2 g f m st = some (p, st2) ∧
      WfB rank (den g rank) (rank m + 1) p ∧
      (∀ s, pden (den g rank) p s = den g rank m s) ∧
      TInv g rank st2 ∧ st2.memo = st.memo ∧ st2.depth = st.depth ∧ NoNewDef st st2

/-- Part-2 compilation is monotone in fuel. -/
theorem p2_mono (g : Grammar) : ∀ f : Nat,
    (∀ f2 n st x, f ≤ f2 → get_parser2 g f n st = some x → get_parser2 g f2 n st = some x) ∧
    (∀ f2 n st x, f ≤ f2 → compile_rule2 g f n st = some x → compile_rule2 g f2 n st = some x) ∧
    (∀ f2 parts st x, f ≤ f2 → make_concat2 g f parts st = some x →
      make_concat2 g f2 parts st = some x) ∧
    (∀ f2 p parts st x, f ≤ f2 → concat_fold2 g f p parts st = some x →
      concat_fold2 g f2 p parts st = some x) ∧
    (∀ f2 p os st x, f ≤ f2 → alt_fold2 g f p os st = some x →
      alt_fold2 g f2 p os st = some x) := by
  intro f
  induction f with
  | zero =>
    refine ⟨?_, ?_, ?_, ?_, ?_⟩ <;> intros <;>
      simp_all [get_parser2, compile_rule2, make_concat2, concat_fold2, alt_fold2]
  | succ f ih =>
    obtain ⟨ihg, ihr, ihm, ihc, iha⟩ := ih
    refine ⟨?_, ?_, ?_, ?_, ?_⟩
    · intro f2 n st x hle h
      obtain ⟨f3, rfl⟩ : ∃ f3, f2 = f3 + 1 := ⟨f2 - 1, by omega⟩
      have hle3 : f ≤ f3 := by omega
      simp only [get_parser2] at h ⊢
      cases ht : st.table n with
      | some q => simpa [ht] using h
      | none =>
        simp only [ht] at h ⊢
        cases hc : compile_rule2 g f n (setTable st n (P.deferred n)) with
        | none => simp [hc] at h
        | some y =>
          simp only [hc] at h
          simp only [ihr f3 n (setTable st n (P.deferred n)) y hle3 hc]
          exact h
    · intro f2 n st x hle h
      obtain ⟨f3, rfl⟩ : ∃ f3, f2 = f3 + 1 := ⟨f2 - 1, by omega⟩
      have hle3 : f ≤ f3 := by omega
      cases hg : g n with
      | none => simp [compile_rule2, hg] at h
      | some rule =>
        cases rule with
        | term t => simpa [compile_rule2, hg] using h
        | opts os =>
          cases os with
          | nil => simp [compile_rule2, hg] at h
          | cons o os =>
            simp only [compile_rule2, hg] at h ⊢
            cases hmc : make_concat2 g f o st with
            | none => simp [hmc] at h
            | some y =>
              obtain ⟨p, st2⟩ := y
              simp only [hmc] at h
              simp only [ihm f3 o st (p, st2) hle3 hmc]
              exact iha f3 p os st2 x hle3 h
    · intro f2 parts st x hle h
      obtain ⟨f3, rfl⟩ : ∃ f3, f2 = f3 + 1 := ⟨f2 - 1, by omega⟩
      have hle3 : f ≤ f3 := by omega
      cases parts with
      | nil => simp [make_concat2] at h
      | cons part parts =>
        simp only [make_concat2] at h ⊢
        cases hg : get_parser2 g f part st with
        | none => simp [hg] at h
        | some y =>
          obtain ⟨p, st2⟩ := y
          simp only [hg] at h
          simp only [ihg f3 part st (p, st2) hle3 hg]
          exact ihc f3 p parts st2 x hle3 h
    · intro f2 p parts st x hle h
      obtain ⟨f3, rfl⟩ : ∃ f3, f2 = f3 + 1 := ⟨f2 - 1, by omega⟩
      have hle3 : f ≤ f3 := by omega
      cases parts with
      | nil =>
        simp only [concat_fold2] at h ⊢
        exact h
      | cons part parts =>
        simp only [concat_fold2] at h ⊢
        cases hg : get_parser2 g f part st with
        | none => simp [hg] at h
        | some y =>
          obtain ⟨q, st2⟩ := y
          simp only [hg] at h
          simp only [ihg f3 part st (q, st2) hle3 hg]
          exact ihc f3 (P.cat p q) parts st2 x hle3 h
    · intro f2 p os st x hle h
      obtain ⟨f3, rfl⟩ : ∃ f3, f2 = f3 + 1 := ⟨f2 - 1, by omega⟩
      have hle3 : f ≤ f3 := by omega
      cases os with
      | nil =>
        simp only [alt_fold2] at h ⊢
        exact h
      | cons o os =>
        simp only [alt_fold2] at h ⊢
        cases hmc : make_concat2 g f o st with
        | none => simp [hmc] at h
        | some y =>
          obtain ⟨q, st2⟩ := y
          simp only [hmc] at h
          simp only [ihm f3 o st (q, st2) hle3 hmc]
          exact iha f3 (P.alt p q) os st2 x hle3 h

theorem concat_fold2_den (g : Grammar) (rank : Nat → Nat) (N : Nat) :
    ∀ (parts : List Nat) (acc : P) (accd : Str → RSet),
      (∀ m ∈ parts, rank m < N ∧ CallOK g rank m) →
      WfB rank (den g rank) N acc →
      (∀ s, pden (den g rank) acc s = accd s) →
      ∀ st, TInv g rank st → DeferredAbove rank st N →
      ∃ f p st2, concat_fold2 g f acc parts st = some (p, st2) ∧
        WfB rank (den g rank) N p ∧
        (∀ s, pden (den g rank) p s = (parts.map (den g rank)).foldl concat accd s) ∧
        TInv g rank st2 ∧ st2.memo = st.memo ∧ st2.depth = st.depth ∧ NoNewDef st st2 := by
  intro parts
  induction parts with
  | nil =>
    intro acc accd _ hwfacc haccd st htinv hdef
    exact ⟨1, acc, st, rfl, hwfacc, haccd, htinv, rfl, rfl, fun _ hk => hk⟩
  | cons m ms ih =>
    intro acc accd hparts hwfacc haccd st htinv hdef
    obtain ⟨hrm, hcall⟩ := hparts m (List.mem_cons_self m ms)
    have hdefm : DeferredAbove rank st (rank m + 1) := fun k hk =>
      le_trans (by omega) (hdef k hk)
    obtain ⟨fm, q, st1, hgp, hwfq, hqden, htinv1, hmemo1, hdepth1, hnnd1⟩ :=
      hcall st htinv hdefm
    have hdef1 : DeferredAbove rank st1 N := fun k hk => hdef k (hnnd1 k hk)
    obtain ⟨fr, p, st2, hfold, hwfp, hpden, htinv2, hmemo2, hdepth2, hnnd2⟩ :=
      ih (P.cat acc q) (concat accd (den g rank m))
        (fun m2 hm2 => hparts m2 (List.mem_cons_of_mem m hm2))
        (WfB.cat hwfacc (hwfq.weaken (by omega)))
        (fun s => concat_congr haccd hqden s)
        st1 htinv1 hdef1
    refine ⟨max fm fr + 1, p, st2, ?_, hwfp, ?_, htinv2,
      by rw [hmemo2, hmemo1], by rw [hdepth2, hdepth1],
      fun k hk => hnnd1 k (hnnd2 k hk)⟩
    · simp only [concat_fold2]
      simp only [(p2_mono g fm).1 (max fm fr) m st (q, st1) (le_max_left _ _) hgp]
      exact (p2_mono g fr).2.2.2.1 _ (P.cat acc q) ms st1 (p, st2) (le_max_right _ _) hfold
    · intro s
      simp only [List.map_cons, List.foldl_cons]
      exact hpden s

theorem make_concat2_den (g : Grammar) (rank : Nat → Nat) (N : Nat) :
    ∀ (o : List Nat), o ≠ [] →
      (∀ m ∈ o, rank m < N ∧ CallOK g rank m) →
      ∀ st, TInv g rank st → DeferredAbove rank st N →
      ∃ f p st2, make_concat2 g f o st = some (p, st2) ∧
        WfB rank (den g rank) N p ∧
        (∀ s, pden (den g rank) p s = den_concat (den g rank) o s) ∧
        TInv g rank st2 ∧ st2.memo = st.memo ∧ st2.depth = st.depth ∧ NoNewDef st st2 := by
  intro o ho hparts st htinv hdef
  cases o with
  | nil => exact absurd rfl ho
  | cons m ms =>
    obtain ⟨hrm, hcall⟩ := hparts m (List.mem_cons_self m ms)
    have hdefm : DeferredAbove rank st (rank m + 1) := fun k hk =>
      le_trans (by omega) (hdef k hk)
    obtain ⟨fm, q, st1, hgp, hwfq, hqden, htinv1, hmemo1, hdepth1, hnnd1⟩ :=
      hcall st htinv hdefm
    have hdef1 : DeferredAbove rank st1 N := fun k hk => hdef k (hnnd1 k hk)
    obtain ⟨fr, p, st2, hfold, hwfp, hpden, htinv2, hmemo2, hdepth2, hnnd2⟩ :=
      concat_fold2_den g rank N ms q (den g rank m)
        (fun m2 hm2 => hparts m2 (List.mem_cons_of_mem m hm2))
        (hwfq.weaken (by omega)) hqden st1 htinv1 hdef1
    refine ⟨max fm fr + 1, p, st2, ?_, hwfp, hpden, htinv2,
      by rw [hmemo2, hmemo1], by rw [hdepth2, hdepth1],
      fun k hk => hnnd1 k (hnnd2 k hk)⟩
    simp only [make_concat2]
    simp only [(p2_mono g fm).1 (max fm fr) m st (q, st1) (le_max_left _ _) hgp]
    exact (p2_mono g fr).2.2.2.1 _ q ms st1 (p, st2) (le_max_right _ _) hfold

theorem alt_fold2_den (g : Grammar) (rank : Nat → Nat) (N : Nat) :
    ∀ (os : List (List Nat)) (acc : P) (accd : Str → RSet),
      (∀ o ∈ os, o ≠ [] ∧ ∀ m ∈ o, rank m < N ∧ CallOK g rank m) →
      WfB rank (den g rank) N acc →
      (∀ s, pden (den g rank) acc s = accd s) →
      ∀ st, TInv g rank st → DeferredAbove rank st N →
      ∃ f p st2, alt_fold2 g f acc os st = some (p, st2) ∧
        WfB rank (den g rank) N p ∧
        (∀ s, pden (den g rank) p s =
          (os.map (den_concat (den g rank))).foldl alt accd s) ∧
        TInv g rank st2 ∧ st2.memo = st.memo ∧ st2.depth = st.depth ∧ NoNewDef st st2 := by
  intro os
  induction os with
  | nil =>
    intro acc accd _ hwfacc haccd st htinv hdef
    exact ⟨1, acc, st, rfl, hwfacc, haccd, htinv, rfl, rfl, fun _ hk => hk⟩
  | cons o os ih =>
    intro acc accd hos hwfacc haccd st htinv hdef
    obtain ⟨hone, hparts⟩ := hos o (List.mem_cons_self o os)
    obtain ⟨fo, q, st1, hmc, hwfq, hqden, htinv1, hmemo1, hdepth1, hnnd1⟩ :=
      make_concat2_den g rank N o hone hparts st htinv hdef
    have hdef1 : DeferredAbove rank st1 N := fun k hk => hdef k (hnnd1 k hk)
    obtain ⟨fr, p, st2, hfold, hwfp, hpden, htinv2, hmemo2, hdepth2, hnnd2⟩ :=
      ih (P.alt acc q) (alt accd (den_concat (den g rank) o))
        (fun o2 ho2 => hos o2 (List.mem_cons_of_mem o ho2))
        (WfB.alt hwfacc hwfq)
        (fun s => alt_congr haccd hqden s)
        st1 htinv1 hdef1
    refine ⟨max fo fr + 1, p, st2, ?_, hwfp, ?_, htinv2,
      by rw [hmemo2, hmemo1], by rw [hdepth2, hdepth1],
      fun k hk => hnnd1 k (hnnd2 k hk)⟩
    · simp only [alt_fold2]
      simp only [(p2_mono g fo).2.2.1 (max fo fr) o st (q, st1) (le_max_left _ _) hmc]
      exact (p2_mono g fr).2.2.2.2 _ (P.alt acc q) os st1 (p, st2) (le_max_right _ _) hfold
    · intro s
      simp only [List.map_cons, List.foldl_cons]
      exact hpden s

theorem compile_rule2_den (g : Grammar) (rank : Nat → Nat) (hwf : WFAcyclic g rank)
    (n : Nat) (rule : Rule) (hg : g n = some rule)
    (hcall : ∀ m, rank m < rank n → (g m).isSome = true → CallOK g rank m) :
    ∀ st, TInv g rank st → DeferredAbove rank st (rank n) →
    ∃ f body st2, compile_rule2 g f n st = some (body, st2) ∧
      WfB rank (den g rank) (rank n) body ∧
      (∀ s, pden (den g rank) body s = den g rank n s) ∧
      TInv g rank st2 ∧ st2.memo = st.memo ∧ st2.depth = st.depth ∧ NoNewDef st st2 := by
  intro st htinv hdef
  cases rule with
  | term t =>
    refine ⟨1, P.lit t, st, by simp [compile_rule2, hg], WfB.lit _ t, ?_, htinv, rfl, rfl,
      fun _ hk => hk⟩
    intro s
    simp [pden, den, den_aux, hg]
  | opts os =>
    obtain ⟨hne, hos⟩ := hwf n os hg
    have hitem : ∀ o ∈ os, o ≠ [] ∧ ∀ m ∈ o, rank m < rank n ∧ CallOK g rank m := by
      intro o ho
      refine ⟨(hos o ho).1, fun m hm => ?_⟩
      have h2 := (hos o ho).2 m hm
      exact ⟨h2.2, hcall m h2.2 h2.1⟩
    cases os with
    | nil => exact absurd rfl hne
    | cons o os2 =>
      obtain ⟨ho1, hparts1⟩ := hitem o (List.mem_cons_self o os2)
      obtain ⟨fo, q, st1, hmc, hwfq, hqden, htinv1, hmemo1, hdepth1, hnnd1⟩ :=
        make_concat2_den g rank (rank n) o ho1 hparts1 st htinv hdef
      have hdef1 : DeferredAbove rank st1 (rank n) := fun k hk => hdef k (hnnd1 k hk)
      obtain ⟨fa, p, st2, hfold, hwfp, hpden2, htinv2, hmemo2, hdepth2, hnnd2⟩ :=
        alt_fold2_den g rank (rank n) os2 q (den_concat (den g rank) o)
          (fun o2 ho2 => hitem o2 (List.mem_cons_of_mem o ho2))
          hwfq hqden st1 htinv1 hdef1
      refine ⟨max fo fa + 1, p, st2, ?_, hwfp, ?_, htinv2,
        by rw [hmemo2, hmemo1], by rw [hdepth2, hdepth1],
        fun k hk => hnnd1 k (hnnd2 k hk)⟩
      · simp only [compile_rule2, hg]
        simp only [(p2_mono g fo).2.2.1 (max fo fa) o st (q, st1) (le_max_left _ _) hmc]
        exact (p2_mono g fa).2.2.2.2 _ q os2 st1 (p, st2) (le_max_right _ _) hfold
      · intro s
        rw [hpden2 s]
        have hstab : ∀ o2 ∈ (o :: os2), ∀ m ∈ o2, ∀ s2,
            den g rank m s2 = den_aux g (rank n) m s2 := by
          intro o2 ho2 m hm s2
          have h2 := (hos o2 ho2).2 m hm
          exact den_aux_stable g rank hwf (rank n) m (rank m + 1) (rank n) h2.2
            (Nat.lt_succ_self _) h2.2 s2
        rw [foldl_alt_congr (den_concat (den g rank))
          (den_concat (den_aux g (rank n))) os2
          (fun o2 ho2 => den_concat_congr o2 (hstab o2 (List.mem_cons_of_mem o ho2)))
          (den_concat_congr o (hstab o (List.mem_cons_self o os2))) s]
        show den_opts (den_aux g (rank n)) (o :: os2) s = den g rank n s
        simp [den, den_aux, hg]

/-- On a well-formed acyclic grammar, every present rule compiles: the
part-2 compiler succeeds from any invariant state and its result is a
well-formed parser computing the rule's denotation. -/
theorem get_parser2_den (g : Grammar) (rank : Nat → Nat) (hwf : WFAcyclic g rank) :
    ∀ j n, rank n < j → (g n).isSome = true → CallOK g rank n := by
  intro j
  induction j using Nat.strong_induction_on with
  | _ j ih =>
    intro n hj hn st htinv hdef
    cases ht : st.table n with
    | some q =>
      rcases htinv n q ht with hdq | ⟨hwfq, hqden⟩
      · subst hdq
        exact absurd (hdef n ht) (by omega)
      · exact ⟨1, q, st, by simp [get_parser2, ht], hwfq.weaken (by omega), hqden,
          htinv, rfl, rfl, fun _ hk => hk⟩
    | none =>
      obtain ⟨rule, hg⟩ := Option.isSome_iff_exists.mp hn
      have htinv1 : TInv g rank (setTable st n (P.deferred n)) := by
        intro k q hk
        by_cases hkn : k = n
        · subst hkn
          left
          have : some (P.deferred k) = some q := by
            rw [← hk]; simp [setTable]
          exact (Option.some_inj.mp this).symm
        · exact htinv k q (by rw [← hk]; simp [setTable, hkn])
      have hdef1 : DeferredAbove rank (setTable st n (P.deferred n)) (rank n) := by
        intro k hk
        by_cases hkn : k = n
        · subst hkn; exact le_refl _
        · have : st.table k = some (P.deferred k) := by
            rw [← hk]; simp [setTable, hkn]
          exact le_trans (by omega) (hdef k this)
      have hcall : ∀ m, rank m < rank n → (g m).isSome = true → CallOK g rank m :=
        fun m hm hmp => ih (rank n) hj m hm hmp
      obtain ⟨fc, body, st2, hcomp, hwfb, hbden, htinv2, hmemo2, hdepth2, hnnd2⟩ :=
        compile_rule2_den g rank hwf n rule hg hcall
          (setTable st n (P.deferred n)) htinv1 hdef1
      refine ⟨fc + 1, P.wrapper body n, setTable st2 n body, ?_, ?_, ?_, ?_, ?_, ?_, ?_⟩
      · simp only [get_parser2, ht]
        simp only [hcomp]
      · exact WfB.wrapper (Nat.lt_succ_self _) hwfb hbden
      · exact hbden
      · intro k q hk
        by_cases hkn : k = n
        · subst hkn
          right
          have : some body = some q := by rw [← hk]; simp [setTable]
          rw [← Option.some_inj.mp this]
          exact ⟨hwfb, hbden⟩
        · exact htinv2 k q (by rw [← hk]; simp [setTable, hkn])
      · rw [show (setTable st2 n body).memo = st2.memo from rfl, hmemo2]
        rfl
      · rw [show (setTable st2 n body).depth = st2.depth from rfl, hdepth2]
        rfl
      · intro k hk
        by_cases hkn : k = n
        · subst hkn
          have : some body = some (P.deferred k) := by rw [← hk]; simp [setTable]
          exact absurd (Option.some_inj.mp this) (hwfb.ne_deferred k)
        · have h2 : st2.table k = some (P.deferred k) := by
            rw [← hk]; simp [setTable, hkn]
          have h1 := hnnd2 k h2
          rw [show (setTable st n (P.deferred n)).table k = st.table k from by
            simp [setTable, hkn]] at h1
          exact h1

/-- Matching is monotone in fuel. -/
theorem eval_mono : ∀ f : Nat,
    (∀ f2 p s st x, f ≤ f2 → evalP f p s st = some x → evalP f2 p s st = some x) ∧
    (∀ f2 r L st x, f ≤ f2 → evalCat f r L st = some x → evalCat f2 r L st = some x) := by
  intro f
  induction f with
  | zero => constructor <;> intros <;> simp_all [evalP, evalCat]
  | succ f ih =>
    obtain ⟨ihp, ihc⟩ := ih
    constructor
    · intro f2 p s st x hle h
      obtain ⟨f3, rfl⟩ : ∃ f3, f2 = f3 + 1 := ⟨f2 - 1, by omega⟩
      have hle3 : f ≤ f3 := by omega
      cases p with
      | lit t => simpa [evalP] using h
      | cat l r =>
        simp only [evalP] at h ⊢
        cases he : evalP f l s st with
        | none => simp [he] at h
        | some y =>
          obtain ⟨ls, st1⟩ := y
          simp only [he] at h
          simp only [ihp f3 l s st (ls, st1) hle3 he]
          exact ihc f3 r (sortStrs ls) st1 x hle3 h
      | alt l r =>
        simp only [evalP] at h ⊢
        cases he : evalP f l s st with
        | none => simp [he] at h
        | some y =>
          obtain ⟨a, st1⟩ := y
          simp only [he] at h
          simp only [ihp f3 l s st (a, st1) hle3 he]
          cases he2 : evalP f r s st1 with
          | none => simp [he2] at h
          | some y2 =>
            obtain ⟨b, st2⟩ := y2
            simp only [he2] at h
            simp only [ihp f3 r s st1 (b, st2) hle3 he2]
            exact h
      | deferred n =>
        simp only [evalP] at h ⊢
        cases ht : st.table n with
        | none => simp [ht] at h
        | some q =>
          simp only [ht] at h ⊢
          exact ihp f3 q s st x hle3 h
      | wrapper b n =>
        simp only [evalP] at h ⊢
        cases hm : st.memo n s with
        | some r => simpa [hm] using h
        | none =>
          simp only [hm] at h ⊢
          by_cases hd : st.depth n s > s.length + 1
          · simpa [hd] using h
          · rw [if_neg hd] at h ⊢
            cases he : evalP f b s (bumpDepth st n s) with
            | none => simp [he] at h
            | some y =>
              obtain ⟨r, st2⟩ := y
              simp only [he] at h
              simp only [ihp f3 b s (bumpDepth st n s) (r, st2) hle3 he]
              exact h
    · intro f2 r L st x hle h
      obtain ⟨f3, rfl⟩ : ∃ f3, f2 = f3 + 1 := ⟨f2 - 1, by omega⟩
      have hle3 : f ≤ f3 := by omega
      cases L with
      | nil => simpa [evalCat] using h
      | cons rest rests =>
        simp only [evalCat] at h ⊢
        cases he : evalP f r rest st with
        | none => simp [he] at h
        | some y =>
          obtain ⟨a, st1⟩ := y
          simp only [he] at h
          simp only [ihp f3 r rest st (a, st1) hle3 he]
          cases he2 : evalCat f r rests st1 with
          | none => simp [he2] at h
          | some y2 =>
            obtain ⟨b, st2⟩ := y2
            simp only [he2] at h
            simp only [ihc f3 r rests st1 (b, st2) hle3 he2]
            exact h

theorem mem_sortStrs (x : Str) (rs : RSet) : x ∈ sortStrs rs ↔ x ∈ rs := by
  rcases rs with ⟨m, hm⟩
  induction m using Quotient.inductionOn with
  | h l =>
    show x ∈ List.insertionSort _ l ↔ _
    rw [(List.perm_insertionSort (fun a b : Str => a ≤ b) l).mem_iff]
    rfl

/-- The union the `concat` loop accumulates over an iteration order. -/
def listUnion (f : Str → RSet) : List Str → RSet
  | [] => ∅
  | x :: xs => f x ∪ listUnion f xs

theorem mem_listUnion (f : Str → RSet) (L : List Str) (y : Str) :
    y ∈ listUnion f L ↔ ∃ x ∈ L, y ∈ f x := by
  induction L with
  | nil => simp [listUnion]
  | cons x xs ih => simp [listUnion, ih]

theorem listUnion_eq_biUnion (f : Str → RSet) (A : RSet) (L : List Str)
    (hmem : ∀ x, x ∈ L ↔ x ∈ A) : listUnion f L = A.biUnion f := by
  ext y
  rw [mem_listUnion, Finset.mem_biUnion]
  constructor
  · rintro ⟨x, hx, hy⟩
    exact ⟨x, (hmem x).mp hx, hy⟩
  · rintro ⟨x, hx, hy⟩
    exact ⟨x, (hmem x).mpr hx, hy⟩

/-- Which rules' guard wrappers occur inside a parser. -/
def HasTag : P → Nat → Prop
  | P.lit _, _ => False
  | P.cat l r, m => HasTag l m ∨ HasTag r m
  | P.alt l r, m => HasTag l m ∨ HasTag r m
  | P.deferred _, _ => False
  | P.wrapper b n, m => m = n ∨ HasTag b m

theorem WfB.tag_lt {rank : Nat → Nat} {d : Nat → Str → RSet} :
    ∀ {R p}, WfB rank d R p → ∀ m, HasTag p m → rank m < R := by
  intro R p h
  induction h with
  | lit R t => intro m hm; exact absurd hm not_false
  | cat _ _ ihl ihr =>
    intro m hm
    simp only [HasTag] at hm
    rcases hm with h2 | h2
    · exact ihl m h2
    · exact ihr m h2
  | alt _ _ ihl ihr =>
    intro m hm
    simp only [HasTag] at hm
    rcases hm with h2 | h2
    · exact ihl m h2
    · exact ihr m h2
  | wrapper hn _ _ ih =>
    intro m hm
    simp only [HasTag] at hm
    rcases hm with rfl | h2
    · exact hn
    · exact lt_trans (ih m h2) hn

/-- Eval-phase invariant at rank bound `R`: every memo entry holds its
rule's denotation, and every not-yet-memoized row of a rule of rank
below `R` has an untouched depth counter. -/
def EInv (g : Grammar) (rank : Nat → Nat) (R : Nat) (st : PState) : Prop :=
  (∀ m s r, st.memo m s = some r → r = den g rank m s) ∧
  (∀ m s, rank m < R → st.memo m s = none → st.depth m s = 0)

/-- A matching step leaves the parser table alone, and leaves the memo
and depth rows of every rule whose wrapper does not occur in `p`
untouched. -/
def EFrame (p : P) (st st2 : PState) : Prop :=
  st2.table = st.table ∧
  ∀ m, ¬ HasTag p m →
    (∀ s, st2.memo m s = st.memo m s) ∧ (∀ s, st2.depth m s = st.depth m s)

theorem EFrame.refl (p : P) (st : PState) : EFrame p st st :=
  ⟨rfl, fun _ _ => ⟨fun _ => rfl, fun _ => rfl⟩⟩

theorem EFrame.compose {p : P} {st st1 st2 : PState}
    (h1 : EFrame p st st1) (h2 : EFrame p st1 st2) : EFrame p st st2 := by
  refine ⟨h2.1.trans h1.1, fun m hm => ?_⟩
  obtain ⟨hm1, hd1⟩ := h1.2 m hm
  obtain ⟨hm2, hd2⟩ := h2.2 m hm
  exact ⟨fun s => (hm2 s).trans (hm1 s), fun s => (hd2 s).trans (hd1 s)⟩

theorem EFrame.mono {p q : P} {st st2 : PState}
    (h : EFrame p st st2) (hsub : ∀ m, HasTag p m → HasTag q m) : EFrame q st st2 :=
  ⟨h.1, fun m hm => h.2 m fun hp => hm (hsub m hp)⟩

/-- The part-2 interpreter computes the pure denotation of every
well-formed parser, from every invariant state: the memo caches only
ever hold denotations and the depth guard never cuts a derivation
short on an acyclic grammar. -/
theorem evalP_sim (g : Grammar) (rank : Nat → Nat) :
    ∀ R : Nat, ∀ p : P, WfB rank (den g rank) R p →
      ∀ s st, EInv g rank R st →
        ∃ f st2, evalP f p s st = some (pden (den g rank) p s, st2) ∧
          EInv g rank R st2 ∧ EFrame p st st2 := by
  intro R
  induction R using Nat.strong_induction_on with
  | _ R ihR =>
    intro p
    induction p with
    | lit t =>
      intro _ s st hinv
      exact ⟨1, st, rfl, hinv, EFrame.refl _ st⟩
    | cat l r ihl ihr =>
      intro hwfb s st hinv
      cases hwfb with
      | cat hl hr =>
        obtain ⟨f1, st1, he1, hinv1, hfr1⟩ := ihl hl s st hinv
        have hloop : ∀ L st0, EInv g rank R st0 →
            ∃ f st2, evalCat f r L st0 = some (listUnion (pden (den g rank) r) L, st2) ∧
              EInv g rank R st2 ∧ EFrame r st0 st2 := by
          intro L
          induction L with
          | nil =>
            intro st0 hinv0
            exact ⟨1, st0, rfl, hinv0, EFrame.refl _ _⟩
          | cons rest rests ihL =>
            intro st0 hinv0
            obtain ⟨fa, sta, hea, hinva, hfra⟩ := ihr hr rest st0 hinv0
            obtain ⟨fb, stb, heb, hinvb, hfrb⟩ := ihL sta hinva
            refine ⟨max fa fb + 1, stb, ?_, hinvb, hfra.compose hfrb⟩
            simp only [evalCat]
            simp only [(eval_mono fa).1 (max fa fb) r rest st0 _ (le_max_left _ _) hea]
            simp only [(eval_mono fb).2 (max fa fb) r rests sta _ (le_max_right _ _) heb]
            rfl
        obtain ⟨f2, st2, he2, hinv2, hfr2⟩ :=
          hloop (sortStrs (pden (den g rank) l s)) st1 hinv1
        refine ⟨max f1 f2 + 1, st2, ?_, hinv2, ?_⟩
        · simp only [evalP]
          simp only [(eval_mono f1).1 (max f1 f2) l s st _ (le_max_left _ _) he1]
          rw [(eval_mono f2).2 (max f1 f2) r (sortStrs (pden (den g rank) l s)) st1 _
            (le_max_right _ _) he2]
          have hval : listUnion (pden (den g rank) r) (sortStrs (pden (den g rank) l s))
              = pden (den g rank) (P.cat l r) s := by
            rw [listUnion_eq_biUnion _ (pden (den g rank) l s) _ (fun x => mem_sortStrs x _)]
            rfl
          rw [hval]
        · refine ⟨hfr2.1.trans hfr1.1, fun m hm => ?_⟩
          simp only [HasTag] at hm
          push_neg at hm
          obtain ⟨hml, hmr⟩ := hm
          obtain ⟨ha1, hb1⟩ := hfr1.2 m hml
          obtain ⟨ha2, hb2⟩ := hfr2.2 m hmr
          exact ⟨fun s2 => (ha2 s2).trans (ha1 s2), fun s2 => (hb2 s2).trans (hb1 s2)⟩
    | alt l r ihl ihr =>
      intro hwfb s st hinv
      cases hwfb with
      | alt hl hr =>
        obtain ⟨f1, st1, he1, hinv1, hfr1⟩ := ihl hl s st hinv
        obtain ⟨f2, st2, he2, hinv2, hfr2⟩ := ihr hr s st1 hinv1
        refine ⟨max f1 f2 + 1, st2, ?_, hinv2, ?_⟩
        · simp only [evalP]
          simp only [(eval_mono f1).1 (max f1 f2) l s st _ (le_max_left _ _) he1]
          simp only [(eval_mono f2).1 (max f1 f2) r s st1 _ (le_max_right _ _) he2]
          rfl
        · refine ⟨hfr2.1.trans hfr1.1, fun m hm => ?_⟩
          simp only [HasTag] at hm
          push_neg at hm
          obtain ⟨hml, hmr⟩ := hm
          obtain ⟨ha1, hb1⟩ := hfr1.2 m hml
          obtain ⟨ha2, hb2⟩ := hfr2.2 m hmr
          exact ⟨fun s2 => (ha2 s2).trans (ha1 s2), fun s2 => (hb2 s2).trans (hb1 s2)⟩
    | deferred n =>
      intro hwfb
      cases hwfb
    | wrapper b n ihb =>
      intro hwfb s st hinv
      cases hwfb with
      | wrapper hn hb hbden =>
        cases hm : st.memo n s with
        | some r =>
          have hr : r = den g rank n s := hinv.1 n s r hm
          refine ⟨1, st, ?_, hinv, EFrame.refl _ _⟩
          simp only [evalP, hm, pden]
          rw [hbden s, hr]
        | none =>
          have hd0 : st.depth n s = 0 := hinv.2 n s hn hm
          have hinv1 : EInv g rank (rank n) (bumpDepth st n s) := by
            constructor
            · intro m s2 r hm2
              exact hinv.1 m s2 r hm2
            · intro m s2 hmr hm2
              have hmn : ¬ (m = n ∧ s2 = s) := by
                rintro ⟨rfl, rfl⟩
                omega
              rw [show (bumpDepth st n s).depth m s2 = st.depth m s2 from by
                simp [bumpDepth, hmn]]
              exact hinv.2 m s2 (lt_trans hmr hn) hm2
          obtain ⟨f2, st2, he2, hinv2, hfr2⟩ := ihR (rank n) hn b hb s (bumpDepth st n s) hinv1
          have hng : ¬ st.depth n s > s.length + 1 := by
            rw [hd0]
            omega
          refine ⟨f2 + 1, setMemo st2 n s (pden (den g rank) b s), ?_, ?_, ?_⟩
          · simp only [evalP, hm]
            rw [if_neg hng]
            simp only [he2, pden]
          · constructor
            · intro m s2 r hm2
              by_cases hms : m = n ∧ s2 = s
              · obtain ⟨rfl, rfl⟩ := hms
                rw [setMemo_memo_self] at hm2
                rw [← Option.some_inj.mp hm2]
                exact hbden _
              · rw [show (setMemo st2 n s (pden (den g rank) b s)).memo m s2
                    = st2.memo m s2 from by simp [setMemo, hms]] at hm2
                exact hinv2.1 m s2 r hm2
            · intro m s2 hmr hm2
              have hms : ¬ (m = n ∧ s2 = s) := by
                rintro ⟨rfl, rfl⟩
                rw [setMemo_memo_self] at hm2
                exact absurd hm2 (by simp)
              rw [show (setMemo st2 n s (pden (den g rank) b s)).memo m s2
                  = st2.memo m s2 from by simp [setMemo, hms]] at hm2
              rw [show (setMemo st2 n s (pden (den g rank) b s)).depth m s2
                  = st2.depth m s2 from rfl]
              by_cases hcase : rank m < rank n
              · exact hinv2.2 m s2 hcase hm2
              · have htag : ¬ HasTag b m := fun ht => absurd (hb.tag_lt m ht) (by omega)
                obtain ⟨hmemf, hdepf⟩ := hfr2.2 m htag
                rw [hdepf s2]
                rw [show (bumpDepth st n s).depth m s2 = st.depth m s2 from by
                  simp [bumpDepth, hms]]
                have hmem0 : st.memo m s2 = none := by
                  rw [show st.memo m s2 = (bumpDepth st n s).memo m s2 from rfl]
                  rw [← hmemf s2]
                  exact hm2
                exact hinv.2 m s2 hmr hmem0
          · constructor
            · rw [show (setMemo st2 n s (pden (den g rank) b s)).table = st2.table from rfl,
                hfr2.1]
              rfl
            · intro m hm2
              simp only [HasTag] at hm2
              push_neg at hm2
              obtain ⟨hmn, hmb⟩ := hm2
              have hms : ∀ s2 : Str, ¬ (m = n ∧ s2 = s) := by
                rintro s2 ⟨rfl, rfl⟩
                exact hmn rfl
              obtain ⟨hmemf, hdepf⟩ := hfr2.2 m hmb
              constructor
              · intro s2
                rw [show (setMemo st2 n s (pden (den g rank) b s)).memo m s2
                    = st2.memo m s2 from by simp [setMemo, hms s2]]
                rw [hmemf s2]
                rfl
              · intro s2
                rw [show (setMemo st2 n s (pden (den g rank) b s)).depth m s2
                    = st2.depth m s2 from rfl]
                rw [hdepf s2]
                simp [bumpDepth, hms s2]

/-- C5: on every grammar in which no rule transitively references
itself — witnessed by a rank function strictly decreasing along
references — and every referenced rule id is present (with the
nonempty rule shapes the input parser produces), the plain part-1
compiler and the memoized, guard-wrapped part-2 compiler both succeed,
and their matchers return the same remainder set on every input
string. -/
theorem p1_p2_equiv (g : Grammar) (rank : Nat → Nat) (hwf : WFAcyclic g rank)
    (n : Nat) (hn : (g n).isSome = true) :
    ∃ f1 m1, get_parser_p1 g f1 n = some m1 ∧
      ∃ f2 p st, get_parser2 g f2 n initState = some (p, st) ∧
        ∀ s, ∃ f3 r st2, evalP f3 p s st = some (r, st2) ∧ r = m1 s := by
  obtain ⟨f1, m1, h1, h1den⟩ := p1_den g rank hwf (rank n + 1) n (Nat.lt_succ_self _) hn
  have hcall : CallOK g rank n :=
    get_parser2_den g rank hwf (rank n + 1) n (Nat.lt_succ_self _) hn
  have htinv : TInv g rank initState := fun k q hk => absurd hk (by simp [initState])
  have hdef : DeferredAbove rank initState (rank n + 1) := fun k hk =>
    absurd hk (by simp [initState])
  obtain ⟨f2, p, st, h2, hwfp, hpden, _, hmemo, hdepth, _⟩ := hcall initState htinv hdef
  refine ⟨f1, m1, h1, f2, p, st, h2, ?_⟩
  intro s
  have hinv : EInv g rank (rank n + 1) st := by
    constructor
    · intro m s2 r hm
      rw [hmemo] at hm
      exact absurd hm (by simp [initState])
    · intro m s2 _ _
      rw [hdepth]
      rfl
  obtain ⟨f3, st2, he, _, _⟩ := evalP_sim g rank (rank n + 1) p hwfp s st hinv
  refine ⟨f3, pden (den g rank) p s, st2, he, ?_⟩
  rw [hpden s, h1den s]

/-- The end-to-end example grammar of the spec: `{0: [[1, 2]], 1: "a",
2: "b"}`. -/
def gAB : Grammar := fun n =>
  if n = 0 then some (Rule.opts [[1, 2]])
  else if n = 1 then some (Rule.term ['a'])
  else if n = 2 then some (Rule.term ['b']) else none

/-- A rank function for `gAB`. -/
def rankAB : Nat → Nat := fun n => if n = 0 then 1 else 0

/-- Instantiation of `p1_p2_equiv` on `gAB`, start rule 0. -/
theorem p1_p2_equiv_witness :
    WFAcyclic gAB rankAB ∧ (gAB 0).isSome = true ∧
    (∃ f1 m1, get_parser_p1 gAB f1 0 = some m1 ∧
      ∃ f2 p st, get_parser2 gAB f2 0 initState = some (p, st) ∧
        ∀ s, ∃ f3 r st2, evalP f3 p s st = some (r, st2) ∧ r = m1 s) := by
  have hwf : WFAcyclic gAB rankAB := by
    intro n os h
    by_cases h0 : n = 0
    · subst h0
      have h2 : (some (Rule.opts [[1, 2]]) : Option Rule) = some (Rule.opts os) := h
      injection h2 with h3
      injection h3 with h4
      subst h4
      refine ⟨by simp, ?_⟩
      intro o ho
      rw [List.mem_singleton] at ho
      subst ho
      refine ⟨by simp, ?_⟩
      intro m hm
      rcases List.mem_pair.mp hm with rfl | rfl
      · exact ⟨rfl, by simp [rankAB]⟩
      · exact ⟨rfl, by simp [rankAB]⟩
    · by_cases h1 : n = 1
      · subst h1
        simp [gAB] at h
      · by_cases h2 : n = 2
        · subst h2
          simp [gAB] at h
        · simp [gAB, h0, h1, h2] at h
  exact ⟨hwf, rfl, p1_p2_equiv gAB rankAB hwf 0 rfl⟩

end Day19
